import Mathlib

/-!
Shallow embedding of the coinfrs Binance ingestion-and-reconciliation engine.

The definitions below are translated from the Python sources:
- backend/app/services/binance/client.py (error taxonomy, rate limiting, time chunking,
  permission validation),
- backend/app/services/binance/collectors/{trade,deposit,withdraw,convert}.py
  (record transformation and keyed upserts),
- backend/app/services/common/base_reconciliation.py and
  backend/app/services/binance/reconciliation.py (daily reconciliation).

Modelling conventions:
- Decimal amounts are rationals (the source uses decimal.Decimal, exact arithmetic).
- Python dicts with string keys are association lists in insertion order; dictSet
  overwrites the first entry with a matching key in place, as dict assignment does.
- datetimes and millisecond timestamps are naturals; ms_to_datetime is the identity.
- The current clock (datetime.utcnow) and the collector identity (self.email) are
  explicit parameters of the functions that read them.
- Effectful steps (sleeping, HTTP calls) are reified as an effect trace where a claim
  is about which effects happen.
-/

/-! ## String helpers for the Python string operations used by the collectors -/

/-- Lower-casing of a string, embedding Python str.lower for the ASCII messages
the error classifier inspects. -/
def pyLower (s : String) : String := ⟨s.data.map Char.toLower⟩

/-- Substring test on character lists: hasSub pat s decides whether pat occurs
contiguously in s, embedding the Python expression pat in s. -/
def hasSub (pat : List Char) : List Char → Bool
  | [] => pat = []
  | c :: rest => (pat = (c :: rest).take pat.length) || hasSub pat rest

/-- Substring containment on strings, embedding Python pat in s. -/
def pyContainsSub (s pat : String) : Bool := hasSub pat.data s.data

/-- Removal of every non-overlapping occurrence of pat, scanning left to right.
The fuel argument bounds the scan by the length of the remaining input; the
initial call passes the full length, which always suffices because each step
consumes at least one character. -/
def removeSubAux (pat : List Char) : Nat → List Char → List Char
  | _, [] => []
  | 0, s => s
  | fuel + 1, c :: rest =>
    if pat ≠ [] ∧ pat = (c :: rest).take pat.length then
      removeSubAux pat fuel ((c :: rest).drop pat.length)
    else
      c :: removeSubAux pat fuel rest

/-- Embedding of the Python expression s.replace(pat, ""). -/
def pyRemove (s pat : String) : String := ⟨removeSubAux pat.data s.data.length s.data⟩

/-- Embedding of Python abs on Decimal values. -/
def pyAbs (q : ℚ) : ℚ := if q < 0 then -q else q

/-! ## Signed API client (binance/client.py) -/

/-- Error taxonomy of BinanceErrorType in client.py. -/
inductive BinanceErrorType
  | API_KEY_INVALID
  | RATE_LIMIT
  | PARAMETER_ERROR
  | INSUFFICIENT_BALANCE
  | NETWORK_ERROR
  | INVALID_SYMBOL
  | UNKNOWN
deriving DecidableEq, Repr

/-- The payload of a raised BinanceAPIError: its category and the original code. -/
structure APIError where
  error_type : BinanceErrorType
  code : Option Int
deriving DecidableEq, Repr

/-- Embedding of BinanceAPIClient._categorize_error: the fixed code-to-category
table followed by message substring sniffing for network failures. The branch
order matches the if/elif chain of the source. -/
def _categorize_error (error_code : Int) (error_msg : String) : BinanceErrorType :=
  if error_code = -2014 ∨ error_code = -2015 ∨ error_code = -1022 then
    .API_KEY_INVALID
  else if error_code = -1003 ∨ error_code = -1015 then
    .RATE_LIMIT
  else if error_code = -1100 ∨ error_code = -1101 ∨ error_code = -1102 ∨ error_code = -1103 ∨
          error_code = -1104 ∨ error_code = -1105 ∨ error_code = -1106 ∨ error_code = -1111 ∨
          error_code = -1112 ∨ error_code = -1121 ∨ error_code = -1125 ∨ error_code = -1127 ∨
          error_code = -1128 then
    .PARAMETER_ERROR
  else if error_code = -1121 then
    .INVALID_SYMBOL
  else if error_code = -2010 ∨ error_code = -1013 then
    .INSUFFICIENT_BALANCE
  else if pyContainsSub (pyLower error_msg) "network" ∨ pyContainsSub (pyLower error_msg) "timeout" then
    .NETWORK_ERROR
  else
    .UNKNOWN

/-- State of the RateLimiter in client.py: a weight budget per rolling
one-minute window (the source constructs it with weight_limit = 3000). -/
structure RateLimiter where
  weight_limit : Nat
  weight_used : Nat
  weight_window_start : ℚ
deriving DecidableEq, Repr

/-- Embedding of RateLimiter.acquire at instant now (seconds): resets the window
when a minute has elapsed, sleeps out the remainder of the window when the
requested weight would exceed the limit, and returns the new state together with
the seconds slept. -/
def RateLimiter.acquire (rl : RateLimiter) (weight : Nat) (now : ℚ) : RateLimiter × ℚ :=
  let rl1 := if 60 ≤ now - rl.weight_window_start then
    { rl with weight_used := 0, weight_window_start := now }
  else rl
  if rl1.weight_limit < rl1.weight_used + weight then
    let wait := 60 - (now - rl1.weight_window_start)
    if 0 < wait then
      ({ rl1 with weight_used := weight, weight_window_start := now + wait }, wait)
    else
      ({ rl1 with weight_used := rl1.weight_used + weight }, 0)
  else
    ({ rl1 with weight_used := rl1.weight_used + weight }, 0)

/-- Observable effects of one call to BinanceAPIClient._make_request, in order. -/
inductive RequestEffect
  | sleepSeconds (seconds : ℚ)
  | acquireBudget (weight : Nat)
  | httpRequest (method url : String)
deriving DecidableEq, Repr

/-- Test for the token-bucket acquisition effect. -/
def RequestEffect.isAcquire : RequestEffect → Bool
  | .acquireBudget _ => true
  | _ => false

/-- Test for the HTTP request effect. -/
def RequestEffect.isHttp : RequestEffect → Bool
  | .httpRequest _ _ => true
  | _ => false

/-- Effect trace of BinanceAPIClient._make_request: the source sleeps for
weight * 0.02 seconds (its comment calls this a simple delay based on weight)
and then issues the HTTP call; it never touches self.rate_limiter. -/
def _make_request_effects (method url : String) (_signed : Bool) (weight : Nat) :
    List RequestEffect :=
  [RequestEffect.sleepSeconds ((weight : ℚ) * (2 / 100)),
   RequestEffect.httpRequest method url]

/-- Outcome of the probe call get_exchange_info issued by
validate_api_permissions: success, a raised BinanceAPIError, or any other
Python exception. -/
inductive ProbeOutcome
  | success
  | apiError (e : APIError)
  | otherError
deriving DecidableEq, Repr

/-- Embedding of BinanceAPIClient.validate_api_permissions as a function of the
probe outcome: ok b models a return of b, error e models re-raising e. The
source has a final catch-all except clause returning False. -/
def validate_api_permissions : ProbeOutcome → Except APIError Bool
  | .success => .ok true
  | .apiError e => if e.error_type = .API_KEY_INVALID then .ok false else .error e
  | .otherError => .ok false

/-- Loop body of BinanceAPIClient.chunk_time_range. The fuel argument bounds the
number of iterations of the while loop of the source; when the chunk width is at
least one millisecond, each iteration advances current_start by at least one, so
a fuel of end_time - start_time + 1 always suffices. -/
def chunkLoop (chunk_ms : Int) : Nat → Int → Int → List (Int × Int)
  | 0, _, _ => []
  | fuel + 1, current_start, end_time =>
    if current_start < end_time then
      (current_start, min (current_start + chunk_ms) end_time) ::
        chunkLoop chunk_ms fuel (min (current_start + chunk_ms) end_time) end_time
    else
      []

/-- Embedding of BinanceAPIClient.chunk_time_range: splits the window
[start_time, end_time) in milliseconds into chunks of at most days days. -/
def chunk_time_range (start_time end_time : Int) (days : Nat) : List (Int × Int) :=
  chunkLoop ((days : Int) * 24 * 60 * 60 * 1000) ((end_time - start_time).toNat + 1)
    start_time end_time

/-! ## Canonical record rows (models/binance_reconciliation.py dict shapes) -/

/-- Row shape built by the deposit, withdraw and transfer collectors for the
BinanceReconciliationTransfer table. -/
structure TransferRow where
  source : String
  fid : Int
  external_id : String
  datetime : Nat
  txn_type : String
  txn_subtype : String
  email : String
  wallet : String
  asset : String
  amount : ℚ
  counter_party : String
  network : String
  txn_hash : String
  match_id : Option Int
  reconciled : Bool
  created_at : Nat
  updated_at : Nat
deriving DecidableEq, Repr

/-- Row shape built by the trade and convert collectors for the
BinanceReconciliationTrade table. -/
structure TradeRow where
  source : String
  fid : Int
  external_id : String
  datetime : Nat
  txn_type : String
  txn_subtype : String
  email : String
  wallet : String
  symbol : String
  asset : String
  amount : ℚ
  price : ℚ
  order_id : String
  trade_id : String
  match_id : Option Int
  reconciled : Bool
  created_at : Nat
  updated_at : Nat
deriving DecidableEq, Repr

/-! ## Deposit collector (collectors/deposit.py) -/

/-- Fields of one raw deposit payload read by DepositCollector._process_deposit. -/
structure Deposit where
  id : String
  status : Int
  insertTime : Nat
  coin : String
  amount : ℚ
  address : String
  network : String
  txId : String
deriving DecidableEq, Repr

/-- Embedding of DepositCollector._process_deposit: only status-1 deposits are
promoted to a canonical transfer_in record; every other status yields none. -/
def _process_deposit (email : String) (now : Nat) (deposit : Deposit) :
    Option TransferRow :=
  if deposit.status ≠ 1 then
    none
  else
    some {
      source := "binance_api"
      fid := 1
      external_id := "deposit_" ++ deposit.id
      datetime := deposit.insertTime
      txn_type := "transfer_in"
      txn_subtype := "deposit"
      email := email
      wallet := "SPOT"
      asset := deposit.coin
      amount := deposit.amount
      counter_party := deposit.address
      network := deposit.network
      txn_hash := deposit.txId
      match_id := none
      reconciled := false
      created_at := now
      updated_at := now }

/-! ## Withdraw collector (collectors/withdraw.py) -/

/-- Fields of one raw withdrawal payload read by
WithdrawCollector._process_withdrawal. -/
structure Withdrawal where
  id : String
  status : Int
  applyTime : Nat
  coin : String
  amount : ℚ
  transactionFee : ℚ
  address : String
  network : String
  txId : String
deriving DecidableEq, Repr

/-- Embedding of WithdrawCollector._process_withdrawal: only status-6
withdrawals are promoted; a positive transactionFee yields a second fee record
with the withdrawal_fee external-id suffix. -/
def _process_withdrawal (email : String) (now : Nat) (w : Withdrawal) :
    List TransferRow :=
  if w.status ≠ 6 then
    []
  else
    let withdrawal_transfer : TransferRow := {
      source := "binance_api"
      fid := 1
      external_id := "withdrawal_" ++ w.id
      datetime := w.applyTime
      txn_type := "transfer_out"
      txn_subtype := "withdraw"
      email := email
      wallet := "SPOT"
      asset := w.coin
      amount := w.amount
      counter_party := w.address
      network := w.network
      txn_hash := w.txId
      match_id := none
      reconciled := false
      created_at := now
      updated_at := now }
    if 0 < w.transactionFee then
      [withdrawal_transfer,
       { withdrawal_transfer with
          external_id := "withdrawal_fee_" ++ w.id
          txn_type := "txn_fee"
          txn_subtype := "withdrawal_fee"
          amount := w.transactionFee
          counter_party := "binance" }]
    else
      [withdrawal_transfer]

/-! ## Trade collector (collectors/trade.py) -/

/-- Fields of one raw spot trade read by TradeCollector._process_trade. -/
structure RawTrade where
  time : Nat
  id : String
  orderId : String
  isBuyer : Bool
  isMaker : Bool
  qty : ℚ
  price : ℚ
  quoteQty : ℚ
  commission : ℚ
  commissionAsset : String
deriving DecidableEq, Repr

/-- Embedding of TradeCollector._process_trade: one principal buy or sell record
whose asset is derived from the symbol string by the stablecoin heuristic of the
source (strip USDT, USDC, BUSD for a buy; pick the contained stablecoin, with
BUSD as the fallback, for a sell), plus one fee record when commission > 0. -/
def _process_trade (email : String) (now : Nat) (trade : RawTrade) (symbol : String) :
    List TradeRow :=
  let trade_record : TradeRow := {
    source := "binance_api"
    fid := 1
    external_id := "trade_" ++ trade.id
    datetime := trade.time
    txn_type := "trade"
    txn_subtype := if trade.isBuyer then "spot_buy" else "spot_sell"
    email := email
    wallet := "SPOT"
    symbol := symbol
    asset :=
      if trade.isBuyer then
        pyRemove (pyRemove (pyRemove symbol "USDT") "USDC") "BUSD"
      else if pyContainsSub symbol "USDT" then "USDT"
      else if pyContainsSub symbol "USDC" then "USDC"
      else "BUSD"
    amount := if trade.isBuyer then trade.qty else trade.quoteQty
    price := trade.price
    order_id := trade.orderId
    trade_id := trade.id
    match_id := none
    reconciled := false
    created_at := now
    updated_at := now }
  if 0 < trade.commission then
    [trade_record,
     { trade_record with
        external_id := "trade_fee_" ++ trade.id
        txn_type := "txn_fee"
        txn_subtype := if trade.isMaker then "maker_fee" else "taker_fee"
        asset := trade.commissionAsset
        amount := trade.commission }]
  else
    [trade_record]

/-! ## Convert collector (collectors/convert.py) -/

/-- Fields of one raw convert event read by ConvertCollector._process_convert. -/
structure ConvertEvent where
  orderId : String
  createTime : Nat
  fromAsset : String
  toAsset : String
  fromAmount : ℚ
  toAmount : ℚ
deriving DecidableEq, Repr

/-- Embedding of ConvertCollector._process_convert: one convert event yields a
convert_sell of the source asset and a convert_buy of the destination asset,
both at price toAmount / fromAmount with the zero division guarded. -/
def _process_convert (email : String) (now : Nat) (c : ConvertEvent) : List TradeRow :=
  let price := if 0 < c.fromAmount then c.toAmount / c.fromAmount else 0
  let sell_record : TradeRow := {
    source := "binance_api"
    fid := 1
    external_id := "convert_sell_" ++ c.orderId
    datetime := c.createTime
    txn_type := "trade"
    txn_subtype := "convert_sell"
    email := email
    wallet := "SPOT"
    symbol := c.fromAsset ++ c.toAsset
    asset := c.fromAsset
    amount := -c.fromAmount
    price := price
    order_id := c.orderId
    trade_id := c.orderId
    match_id := none
    reconciled := false
    created_at := now
    updated_at := now }
  [sell_record,
   { sell_record with
      external_id := "convert_buy_" ++ c.orderId
      txn_subtype := "convert_buy"
      asset := c.toAsset
      amount := c.toAmount }]

/-! ## Keyed upserts (the _save_transfer and _save_trade methods) -/

/-- Key match of a stored transfer row against an incoming record, the filter_by
condition source == source and external_id == external_id. -/
def transferKeyMatch (r t : TransferRow) : Bool :=
  r.source == t.source && r.external_id == t.external_id

/-- Embedding of the _save_transfer upsert of the deposit and withdraw
collectors: the first row matching (source, external_id) has every field updated
in place except created_at; when no row matches, the record is inserted. -/
def _save_transfer : List TransferRow → TransferRow → List TransferRow
  | [], t => [t]
  | r :: rest, t =>
    if transferKeyMatch r t then
      { t with created_at := r.created_at } :: rest
    else
      r :: _save_transfer rest t

/-- Number of stored transfer rows with the given (source, external_id) key. -/
def transferKeyCount (db : List TransferRow) (src eid : String) : Nat :=
  (db.filter (fun r => r.source == src && r.external_id == eid)).length

/-- First stored transfer row with the given (source, external_id) key. -/
def findTransfer (db : List TransferRow) (src eid : String) : Option TransferRow :=
  db.find? (fun r => r.source == src && r.external_id == eid)

/-- Key match of a stored trade row against an incoming record. -/
def tradeKeyMatch (r t : TradeRow) : Bool :=
  r.source == t.source && r.external_id == t.external_id

/-- Embedding of the _save_trade upsert of the trade and convert collectors,
identical in structure to _save_transfer. -/
def _save_trade : List TradeRow → TradeRow → List TradeRow
  | [], t => [t]
  | r :: rest, t =>
    if tradeKeyMatch r t then
      { t with created_at := r.created_at } :: rest
    else
      r :: _save_trade rest t

/-- Number of stored trade rows with the given (source, external_id) key. -/
def tradeKeyCount (db : List TradeRow) (src eid : String) : Nat :=
  (db.filter (fun r => r.source == src && r.external_id == eid)).length

/-- First stored trade row with the given (source, external_id) key. -/
def findTrade (db : List TradeRow) (src eid : String) : Option TradeRow :=
  db.find? (fun r => r.source == src && r.external_id == eid)

/-! ## Reconciliation engine (base_reconciliation.py and binance/reconciliation.py) -/

/-- Association-list model of a Python dict from asset to Decimal amount. -/
abbrev PosDict := List (String × ℚ)

/-- Lookup in an asset dict: the value of the first entry with the given key. -/
def dictGet (d : PosDict) (k : String) : Option ℚ :=
  (d.find? (fun p => p.1 == k)).map Prod.snd

/-- Lookup with default, the Python expression d.get(k, v0). -/
def dictGetD (d : PosDict) (k : String) (v0 : ℚ) : ℚ :=
  (dictGet d k).getD v0

/-- Assignment d[k] = v on a dict in insertion order: the first entry with the
key is overwritten in place, a missing key is appended at the end. -/
def dictSet : PosDict → String → ℚ → PosDict
  | [], k, v => [(k, v)]
  | p :: rest, k, v =>
    if p.1 = k then (k, v) :: rest else p :: dictSet rest k v

/-- Keys of a dict in insertion order. -/
def dictKeys (d : PosDict) : List String := d.map Prod.fst

/-- One transaction row as consumed by
BinanceReconciliationService.calculate_expected_position: the fields read are
type, asset, amount, side and (in reconcile_daily) account_id. -/
structure Txn where
  type : String
  asset : String
  amount : ℚ
  side : String
  account_id : String
deriving DecidableEq, Repr

/-- Loop body of calculate_expected_position: deposits add, withdrawals
subtract, trades add on a buy side and subtract otherwise; any other
transaction type leaves the position unchanged. -/
def applyTxn (position : PosDict) (txn : Txn) : PosDict :=
  if txn.type = "deposit" then
    dictSet position txn.asset (dictGetD position txn.asset 0 + txn.amount)
  else if txn.type = "withdrawal" then
    dictSet position txn.asset (dictGetD position txn.asset 0 - txn.amount)
  else if txn.type = "trade" then
    if txn.side = "buy" then
      dictSet position txn.asset (dictGetD position txn.asset 0 + txn.amount)
    else
      dictSet position txn.asset (dictGetD position txn.asset 0 - txn.amount)
  else
    position

/-- Embedding of BinanceReconciliationService.calculate_expected_position:
applies each transaction to the starting position and then drops every entry
whose value is not positive. -/
def calculate_expected_position (starting_position : PosDict) (transactions : List Txn) :
    PosDict :=
  (transactions.foldl applyTxn starting_position).filter (fun p => 0 < p.2)

/-- Discrepancy entry appended by ReconciliationResult.add_discrepancy. -/
structure Discrepancy where
  account : String
  asset : String
  expected : ℚ
  actual : ℚ
  difference : ℚ
deriving DecidableEq, Repr

/-- The rounding tolerance of reconcile_daily, Decimal 0.00000001. -/
def tolerance : ℚ := 1 / 100000000

/-- Association-list model of the dict from account_id to its position dict. -/
abbrev AcctPositions := List (String × PosDict)

/-- Lookup of the position dict of one account, the Python expression
positions.get(account_id, the empty dict). -/
def acctGet (m : AcctPositions) (account_id : String) : PosDict :=
  ((m.find? (fun p => p.1 == account_id)).map Prod.snd).getD []

/-- Accounts or assets of the outer dict, in insertion order. -/
def acctKeys (m : AcctPositions) : List String := m.map Prod.fst

/-- Accumulates a key into a deduplicated key list. The source iterates over a
Python set union whose order is arbitrary; the claims are order-insensitive, so
the union is determinized to first-occurrence order. -/
def addKey (acc : List String) (k : String) : List String :=
  if k ∈ acc then acc else acc ++ [k]

/-- Determinized set union of two key lists. -/
def keyUnion (xs ys : List String) : List String :=
  (xs ++ ys).foldl addKey []

/-- Per-account body of the reconcile_daily loop: the expected position is
computed from the T-2 position and the transactions of the account, and every
asset of the union of expected and actual whose difference exceeds the
tolerance becomes a discrepancy with difference = actual - expected. -/
def reconcileAccount (positions_t2 positions_t1 : AcctPositions) (transactions : List Txn)
    (account_id : String) : List Discrepancy :=
  let start_pos := acctGet positions_t2 account_id
  let actual_pos := acctGet positions_t1 account_id
  let account_txns := transactions.filter (fun t => t.account_id == account_id)
  let expected_pos := calculate_expected_position start_pos account_txns
  let all_assets := keyUnion (dictKeys expected_pos) (dictKeys actual_pos)
  all_assets.filterMap (fun asset =>
    let expected := dictGetD expected_pos asset 0
    let actual := dictGetD actual_pos asset 0
    if tolerance < pyAbs (expected - actual) then
      some ⟨account_id, asset, expected, actual, actual - expected⟩
    else
      none)

/-- Embedding of the discrepancy computation of
BaseReconciliationService.reconcile_daily, with the two snapshot fetches and the
transaction fetch abstracted as inputs (the T-2 and T-1 date derivation is
embedded separately as reconcile_daily_window). -/
def reconcile_daily (positions_t2 positions_t1 : AcctPositions) (transactions : List Txn) :
    List Discrepancy :=
  (keyUnion (acctKeys positions_t2) (acctKeys positions_t1)).flatMap
    (reconcileAccount positions_t2 positions_t1 transactions)

/-- Per-asset contribution of one transaction as calculate_expected_position
applies it: deposits and trade buys add, withdrawals and trade sells subtract,
every other type contributes nothing. -/
def txnDelta (t : Txn) (asset : String) : ℚ :=
  if t.asset = asset then
    if t.type = "deposit" then t.amount
    else if t.type = "withdrawal" then -t.amount
    else if t.type = "trade" then
      if t.side = "buy" then t.amount else -t.amount
    else 0
  else 0

/-- Closed form of the position the code computes before dropping non-positive
entries: the starting amount plus the sum of the per-transaction deltas. -/
def rawExpected (start : PosDict) (txns : List Txn) (asset : String) : ℚ :=
  dictGetD start asset 0 + (txns.map (fun t => txnDelta t asset)).sum

/-- Closed form of the expected amount the code compares against the actual
position: the raw expected amount, clamped to 0 when it is not positive
because calculate_expected_position drops such entries. -/
def amendedExpected (start : PosDict) (txns : List Txn) (asset : String) : ℚ :=
  if 0 < rawExpected start txns asset then rawExpected start txns asset else 0

/-- Modelled from the spec: the expected-position formula as the specification
words it, position(T-2) + the sum of deposits, transfer-ins and trade buys
minus the sum of withdrawals, transfer-outs, trade sells and fees, applied per
asset. Stated only to be compared against the code's
calculate_expected_position. -/
def specExpectedFormula (start : PosDict) (txns : List Txn) (asset : String) : ℚ :=
  dictGetD start asset 0
    + ((txns.filter (fun t => t.asset = asset ∧
        (t.type = "deposit" ∨ t.type = "transfer_in" ∨
         (t.type = "trade" ∧ t.side = "buy")))).map Txn.amount).sum
    - ((txns.filter (fun t => t.asset = asset ∧
        (t.type = "withdrawal" ∨ t.type = "transfer_out" ∨
         (t.type = "trade" ∧ t.side = "sell") ∨ t.type = "txn_fee"))).map Txn.amount).sum

/-! ## Date window derivation of reconcile_daily (base_reconciliation.py) -/

/-- Gregorian leap-year test, as Python datetime.date implements it. -/
def is_leap_year (y : Int) : Bool :=
  (y % 4 == 0 && y % 100 != 0) || (y % 400 == 0)

/-- Days in a month of the proleptic Gregorian calendar. -/
def days_in_month (y : Int) (m : Nat) : Nat :=
  if m = 2 then (if is_leap_year y then 29 else 28)
  else if m = 4 ∨ m = 6 ∨ m = 9 ∨ m = 11 then 30
  else 31

/-- Model of a Python datetime.date value. -/
structure PyDate where
  year : Int
  month : Nat
  day : Nat
deriving DecidableEq, Repr

/-- Validity of a date, the invariant datetime.date guarantees. -/
def PyDate.valid (d : PyDate) : Prop :=
  1 ≤ d.month ∧ d.month ≤ 12 ∧ 1 ≤ d.day ∧ d.day ≤ days_in_month d.year d.month

instance (d : PyDate) : Decidable d.valid := by
  unfold PyDate.valid
  infer_instance

/-- Embedding of Python date.replace(day = newDay): a ValueError is raised
unless 1 <= newDay <= the number of days of the date's month. -/
def date_replace_day (d : PyDate) (newDay : Int) : Except String PyDate :=
  if 1 ≤ newDay ∧ newDay ≤ (days_in_month d.year d.month : Int) then
    .ok { d with day := newDay.toNat }
  else
    .error "day is out of range for month"

/-- Embedding of the first two statements of reconcile_daily: the T-2 and T-1
dates are derived by day-of-month subtraction via date.replace. -/
def reconcile_daily_window (reconciliation_date : PyDate) :
    Except String (PyDate × PyDate) := do
  let t_minus_2 ← date_replace_day reconciliation_date ((reconciliation_date.day : Int) - 2)
  let t_minus_1 ← date_replace_day reconciliation_date ((reconciliation_date.day : Int) - 1)
  pure (t_minus_2, t_minus_1)

/-! ## Helper lemmas -/

/-- Two appends with the same suffix differ whenever their constant heads have
different lengths; this separates the external-id namespaces of principal and
fee records. -/
theorem append_ne_of_length_ne (a b s : String) (h : a.length ≠ b.length) :
    a ++ s ≠ b ++ s := by
  intro he
  apply h
  have hl := congrArg String.length he
  simp only [String.length_append] at hl
  omega

/-! ## C3: convert decomposition -/

/-- C3: every convert event yields exactly a convert_sell of the source asset
with amount -fromAmount and a convert_buy of the destination asset with amount
+toAmount, both with the same order id in their external-id derivation and with
price toAmount / fromAmount guarded to 0 when fromAmount is not positive; the
ETH to USDT example of the specification evaluates to two records of price
3000. -/
theorem process_convert_decomposition (email : String) (now : Nat) (c : ConvertEvent) :
    ((_process_convert email now c).map TradeRow.txn_subtype =
        ["convert_sell", "convert_buy"] ∧
      (_process_convert email now c).map TradeRow.asset = [c.fromAsset, c.toAsset] ∧
      (_process_convert email now c).map TradeRow.amount = [-c.fromAmount, c.toAmount] ∧
      (_process_convert email now c).map TradeRow.external_id =
        ["convert_sell_" ++ c.orderId, "convert_buy_" ++ c.orderId] ∧
      (_process_convert email now c).map TradeRow.order_id = [c.orderId, c.orderId] ∧
      (_process_convert email now c).map TradeRow.price =
        [if 0 < c.fromAmount then c.toAmount / c.fromAmount else 0,
         if 0 < c.fromAmount then c.toAmount / c.fromAmount else 0] ∧
      "convert_sell_" ++ c.orderId ≠ "convert_buy_" ++ c.orderId) ∧
    (_process_convert "user" 0 ⟨"42", 0, "ETH", "USDT", 2, 6000⟩).map
        (fun r => (r.txn_subtype, r.asset, r.amount, r.price)) =
      [("convert_sell", "ETH", -2, 3000), ("convert_buy", "USDT", 6000, 3000)] := by
  refine ⟨⟨rfl, rfl, rfl, rfl, rfl, rfl, ?_⟩, ?_⟩
  · exact append_ne_of_length_ne _ _ _ (by decide)
  · norm_num [_process_convert]

/-! ## C5: completed-only promotion for deposits and withdrawals -/

/-- C5: a deposit is promoted to a canonical record exactly when its status is
1, a withdrawal is promoted exactly when its status is 6, and a status-6
withdrawal with positive transactionFee yields a second fee record sharing the
transaction hash and network of the main record under a distinct external id. -/
theorem completed_only_promotion (email : String) (now : Nat) (d : Deposit) (w : Withdrawal) :
    ((_process_deposit email now d).isSome ↔ d.status = 1) ∧
    (_process_withdrawal email now w ≠ [] ↔ w.status = 6) ∧
    (w.status = 6 → 0 < w.transactionFee →
      ∃ main fee, _process_withdrawal email now w = [main, fee] ∧
        main.external_id = "withdrawal_" ++ w.id ∧
        fee.external_id = "withdrawal_fee_" ++ w.id ∧
        fee.external_id ≠ main.external_id ∧
        fee.txn_hash = main.txn_hash ∧
        fee.network = main.network ∧
        fee.txn_subtype = "withdrawal_fee" ∧
        fee.amount = w.transactionFee) ∧
    (w.status = 6 → ¬ 0 < w.transactionFee →
      (_process_withdrawal email now w).map TransferRow.external_id =
        ["withdrawal_" ++ w.id]) := by
  refine ⟨?_, ?_, ?_, ?_⟩
  · by_cases hs : d.status = 1 <;> simp [_process_deposit, hs]
  · by_cases hs : w.status = 6 <;> by_cases hf : 0 < w.transactionFee <;>
      simp [_process_withdrawal, hs, hf]
  · intro hs hf
    have hL : _process_withdrawal email now w =
        [{ source := "binance_api", fid := 1, external_id := "withdrawal_" ++ w.id,
           datetime := w.applyTime, txn_type := "transfer_out", txn_subtype := "withdraw",
           email := email, wallet := "SPOT", asset := w.coin, amount := w.amount,
           counter_party := w.address, network := w.network, txn_hash := w.txId,
           match_id := none, reconciled := false, created_at := now, updated_at := now },
         { source := "binance_api", fid := 1, external_id := "withdrawal_fee_" ++ w.id,
           datetime := w.applyTime, txn_type := "txn_fee", txn_subtype := "withdrawal_fee",
           email := email, wallet := "SPOT", asset := w.coin, amount := w.transactionFee,
           counter_party := "binance", network := w.network, txn_hash := w.txId,
           match_id := none, reconciled := false, created_at := now, updated_at := now }] := by
      simp [_process_withdrawal, hs, hf]
    exact ⟨_, _, hL, rfl, rfl, append_ne_of_length_ne _ _ _ (by decide), rfl, rfl, rfl, rfl⟩
  · intro hs hf
    simp [_process_withdrawal, hs, hf]

/-- Witness for C5: a concrete status-1 deposit is promoted, and a concrete
status-6 withdrawal with fee 0.1 yields the main and fee records. -/
theorem completed_only_promotion_witness :
    ((_process_deposit "u" 7 ⟨"d1", 1, 5, "BTC", 2, "addr", "BTC", "0xh"⟩).isSome ↔
      (1 : Int) = 1) ∧
    (∃ main fee,
      _process_withdrawal "u" 7 ⟨"w1", 6, 5, "BTC", 2, 1 / 10, "addr", "BTC", "0xh"⟩ =
        [main, fee] ∧
      main.external_id = "withdrawal_" ++ "w1" ∧
      fee.external_id = "withdrawal_fee_" ++ "w1" ∧
      fee.external_id ≠ main.external_id ∧
      fee.txn_hash = main.txn_hash ∧
      fee.network = main.network ∧
      fee.txn_subtype = "withdrawal_fee" ∧
      fee.amount = 1 / 10) :=
  ⟨(completed_only_promotion "u" 7 ⟨"d1", 1, 5, "BTC", 2, "addr", "BTC", "0xh"⟩
      ⟨"w1", 6, 5, "BTC", 2, 1 / 10, "addr", "BTC", "0xh"⟩).1,
   (completed_only_promotion "u" 7 ⟨"d1", 1, 5, "BTC", 2, "addr", "BTC", "0xh"⟩
      ⟨"w1", 6, 5, "BTC", 2, 1 / 10, "addr", "BTC", "0xh"⟩).2.2.1 rfl (by norm_num)⟩

/-! ## C6: classification of the invalid-symbol error code -/

/-- C6: the claim expects _categorize_error to map the exchange's
invalid-symbol code -1121 to INVALID_SYMBOL, but the source lists -1121 in the
parameter-error code list that is checked first, so the dedicated
invalid-symbol branch is unreachable and the classifier returns
PARAMETER_ERROR. -/
theorem categorize_error_minus_1121 :
    _categorize_error (-1121) "Invalid symbol." = BinanceErrorType.PARAMETER_ERROR ∧
    _categorize_error (-1121) "Invalid symbol." ≠ BinanceErrorType.INVALID_SYMBOL := by
  constructor <;> decide

/-! ## C8: permission validation -/

/-- Counterexample for C8: the probe failing with a non-BinanceAPIError
exception is a failure whose category is not API_KEY_INVALID, yet
validate_api_permissions returns false for it instead of propagating. -/
theorem validate_permissions_counterexample :
    validate_api_permissions ProbeOutcome.otherError = Except.ok false := rfl

/-- C8 (amended): validate_api_permissions returns false exactly when the probe
fails with a BinanceAPIError of category API_KEY_INVALID or with any
non-BinanceAPIError exception; it returns true exactly on success, and it
propagates exactly the BinanceAPIError failures of every other category. -/
theorem validate_permissions_amended (p : ProbeOutcome) :
    (validate_api_permissions p = .ok false ↔
      (p = .otherError ∨ ∃ e, p = .apiError e ∧ e.error_type = .API_KEY_INVALID)) ∧
    (validate_api_permissions p = .ok true ↔ p = .success) ∧
    (∀ e, validate_api_permissions p = .error e ↔
      p = .apiError e ∧ e.error_type ≠ .API_KEY_INVALID) := by
  rcases p with _ | e | _
  · simp [validate_api_permissions]
  · by_cases he : e.error_type = .API_KEY_INVALID <;>
      simp [validate_api_permissions, he]
  · simp [validate_api_permissions]

/-- Witness for C8 (amended): a rate-limit categorized BinanceAPIError from the
probe propagates unchanged. -/
theorem validate_permissions_amended_witness :
    validate_api_permissions
        (ProbeOutcome.apiError ⟨BinanceErrorType.RATE_LIMIT, some (-1003)⟩) =
      Except.error ⟨BinanceErrorType.RATE_LIMIT, some (-1003)⟩ :=
  ((validate_permissions_amended
      (ProbeOutcome.apiError ⟨BinanceErrorType.RATE_LIMIT, some (-1003)⟩)).2.2
    ⟨BinanceErrorType.RATE_LIMIT, some (-1003)⟩).mpr ⟨rfl, by decide⟩

/-! ## C9: rate budgeting of the request path -/

/-- Counterexample for C9: a weight-1 request issues its HTTP call without ever
acquiring weight from the token-bucket rate limiter. -/
theorem make_request_counterexample :
    (_make_request_effects "GET" "/api/v3/exchangeInfo" false 1).filter
        RequestEffect.isAcquire = [] ∧
    (_make_request_effects "GET" "/api/v3/exchangeInfo" false 1).countP
        RequestEffect.isHttp = 1 := by
  constructor <;> rfl

/-- C9 (amended): every invocation of _make_request performs a fixed
synchronous delay of weight * 0.02 seconds and then issues exactly one HTTP
call; no weight is ever acquired from the token-bucket rate limiter on the
request path. -/
theorem make_request_amended (method url : String) (signed : Bool) (weight : Nat) :
    (_make_request_effects method url signed weight).filter RequestEffect.isAcquire = [] ∧
    (_make_request_effects method url signed weight).countP RequestEffect.isHttp = 1 ∧
    _make_request_effects method url signed weight =
      [RequestEffect.sleepSeconds ((weight : ℚ) * (2 / 100)),
       RequestEffect.httpRequest method url] :=
  ⟨rfl, rfl, rfl⟩

/-! ## C7: time chunking -/

/-- The chunking loop yields nothing once current_start has reached the end of
the window, whatever fuel remains. -/
theorem chunkLoop_stop (chunk_ms : Int) (fuel : Nat) (cur stop : Int) (h : ¬ cur < stop) :
    chunkLoop chunk_ms fuel cur stop = [] := by
  cases fuel with
  | zero => rfl
  | succ n => simp [chunkLoop, h]

/-- Full behavior of the chunking loop under sufficient fuel: the produced
chunks are non-empty, start at the current position, end at the window end,
chain contiguously and each span at most chunk_ms. -/
theorem chunkLoop_spec (chunk_ms : Int) (h1 : 1 ≤ chunk_ms) :
    ∀ (fuel : Nat) (cur stop : Int), (stop - cur).toNat < fuel → cur < stop →
      chunkLoop chunk_ms fuel cur stop ≠ [] ∧
      (chunkLoop chunk_ms fuel cur stop).head?.map Prod.fst = some cur ∧
      (chunkLoop chunk_ms fuel cur stop).getLast?.map Prod.snd = some stop ∧
      List.Chain' (fun a b => a.2 = b.1) (chunkLoop chunk_ms fuel cur stop) ∧
      ∀ p ∈ chunkLoop chunk_ms fuel cur stop, p.1 < p.2 ∧ p.2 - p.1 ≤ chunk_ms := by
  intro fuel
  induction fuel with
  | zero => intro cur stop hf; omega
  | succ n ih =>
    intro cur stop hf hlt
    have hunf : chunkLoop chunk_ms (n + 1) cur stop =
        (cur, min (cur + chunk_ms) stop) ::
          chunkLoop chunk_ms n (min (cur + chunk_ms) stop) stop := by
      simp [chunkLoop, hlt]
    by_cases hm : min (cur + chunk_ms) stop < stop
    · have hmin : min (cur + chunk_ms) stop = cur + chunk_ms := by omega
      have hf2 : (stop - (cur + chunk_ms)).toNat < n := by omega
      obtain ⟨tne, thead, tlast, tchain, tbound⟩ := ih (cur + chunk_ms) stop hf2 (by omega)
      rw [hunf, hmin] at *
      rcases htl : chunkLoop chunk_ms n (cur + chunk_ms) stop with _ | ⟨hd, tl⟩
      · exact absurd htl tne
      · rw [htl] at thead tlast tchain tbound
        refine ⟨by simp, by simp, ?_, ?_, ?_⟩
        · rw [List.getLast?_cons_cons]
          exact tlast
        · rw [List.chain'_cons]
          constructor
          · simpa using thead.symm
          · exact tchain
        · intro p hp
          rcases List.mem_cons.mp hp with hp | hp
          · subst hp
            constructor
            · omega
            · simp
          · exact tbound p hp
    · have hmin : min (cur + chunk_ms) stop = stop := by omega
      rw [hunf, hmin, chunkLoop_stop chunk_ms n stop stop (by omega)]
      refine ⟨by simp, by simp, by simp, by simp, ?_⟩
      intro p hp
      rcases List.mem_cons.mp hp with hp | hp
      · subst hp
        constructor
        · omega
        · simp
          omega
      · simp at hp

/-- C7: for every start < end and max_days at least 1, chunk_time_range returns
a non-empty list of contiguous non-overlapping sub-ranges whose first element
starts at start, whose last element ends at end, and each of which spans at
most max_days days. -/
theorem chunk_time_range_covers (start_time end_time : Int) (days : Nat)
    (hlt : start_time < end_time) (hd : 1 ≤ days) :
    chunk_time_range start_time end_time days ≠ [] ∧
    (chunk_time_range start_time end_time days).head?.map Prod.fst = some start_time ∧
    (chunk_time_range start_time end_time days).getLast?.map Prod.snd = some end_time ∧
    List.Chain' (fun a b => a.2 = b.1) (chunk_time_range start_time end_time days) ∧
    ∀ p ∈ chunk_time_range start_time end_time days,
      p.1 < p.2 ∧ p.2 - p.1 ≤ (days : Int) * 24 * 60 * 60 * 1000 := by
  have hdays : (1 : Int) ≤ (days : Int) := by exact_mod_cast hd
  have hms : (1 : Int) ≤ (days : Int) * 24 * 60 * 60 * 1000 := by nlinarith
  exact chunkLoop_spec _ hms _ start_time end_time (by omega) hlt

/-- Witness for C7: with max_days 1 over a 3-day window the chunking returns
exactly the 3 contiguous day-long sub-ranges covering the window. -/
theorem chunk_time_range_covers_witness :
    chunk_time_range 0 259200000 1 =
      [(0, 86400000), (86400000, 172800000), (172800000, 259200000)] ∧
    chunk_time_range 0 259200000 1 ≠ [] :=
  ⟨by decide, (chunk_time_range_covers 0 259200000 1 (by decide) (by decide)).1⟩

/-! ## C10: day-of-month subtraction in the reconcile_daily date derivation -/

/-- C10: on every valid calendar date, the T-2 and T-1 derivation of
reconcile_daily via date.replace day subtraction raises a ValueError exactly
when the day of month is 1 or 2, so reconciliation cannot run on the first two
days of any month. -/
theorem reconcile_window_month_start (d : PyDate) (hv : d.valid) :
    (∃ msg, reconcile_daily_window d = Except.error msg) ↔ (d.day = 1 ∨ d.day = 2) := by
  obtain ⟨h1, h2, h3, h4⟩ := hv
  by_cases hd : d.day ≤ 2
  · have hneg : ¬ (1 ≤ (d.day : Int) - 2 ∧
        (d.day : Int) - 2 ≤ (days_in_month d.year d.month : Int)) := by omega
    constructor
    · intro _
      omega
    · intro _
      refine ⟨"day is out of range for month", ?_⟩
      unfold reconcile_daily_window date_replace_day
      rw [if_neg hneg]
      rfl
  · have hp1 : 1 ≤ (d.day : Int) - 2 ∧
        (d.day : Int) - 2 ≤ (days_in_month d.year d.month : Int) := by omega
    have hp2 : 1 ≤ (d.day : Int) - 1 ∧
        (d.day : Int) - 1 ≤ (days_in_month d.year d.month : Int) := by omega
    constructor
    · intro ⟨msg, hmsg⟩
      unfold reconcile_daily_window date_replace_day at hmsg
      rw [if_pos hp1, if_pos hp2] at hmsg
      exact Except.noConfusion hmsg
    · intro h
      omega

/-- Witness for C10: March 2nd 2026 is a valid date on which the window
derivation raises. -/
theorem reconcile_window_month_start_witness :
    PyDate.valid ⟨2026, 3, 2⟩ ∧
    (∃ msg, reconcile_daily_window ⟨2026, 3, 2⟩ = Except.error msg) :=
  ⟨by decide, (reconcile_window_month_start ⟨2026, 3, 2⟩ (by decide)).mpr (by decide)⟩

/-! ## C2: idempotent keyed upserts -/

/-- Counting rows with a key distributes over list cons. -/
theorem transferKeyCount_cons (r : TransferRow) (rest : List TransferRow) (src eid : String) :
    transferKeyCount (r :: rest) src eid =
      (if r.source == src && r.external_id == eid then 1 else 0) +
        transferKeyCount rest src eid := by
  simp only [transferKeyCount, List.filter_cons]
  split <;> simp [Nat.add_comm]

/-- A key absent from a cons list is absent from head and tail. -/
theorem transferKeyCount_cons_zero (r : TransferRow) (rest : List TransferRow) (src eid : String)
    (h : transferKeyCount (r :: rest) src eid = 0) :
    (r.source == src && r.external_id == eid) = false ∧
      transferKeyCount rest src eid = 0 := by
  rw [transferKeyCount_cons] at h
  have hm : (r.source == src && r.external_id == eid) = false := by
    by_contra hb
    simp only [Bool.not_eq_false] at hb
    rw [hb] at h
    simp at h
  rw [hm] at h
  simp only [Bool.false_eq_true, if_false] at h
  exact ⟨hm, by omega⟩

/-- Saving a transfer whose key is absent appends it at the end. -/
theorem save_transfer_append (db : List TransferRow) (t : TransferRow)
    (h0 : transferKeyCount db t.source t.external_id = 0) :
    _save_transfer db t = db ++ [t] := by
  induction db with
  | nil => rfl
  | cons r rest ih =>
    obtain ⟨hm, hrest⟩ := transferKeyCount_cons_zero r rest _ _ h0
    simp only [_save_transfer, transferKeyMatch, hm, Bool.false_eq_true, if_false,
      List.cons_append, List.cons.injEq, true_and]
    exact ih hrest

/-- Saving a second transfer with the same key overwrites the stored row in
place, every field taken from the incoming record except created_at. -/
theorem save_transfer_update (db : List TransferRow) (t t' : TransferRow)
    (hs : t'.source = t.source) (he : t'.external_id = t.external_id)
    (h0 : transferKeyCount db t.source t.external_id = 0) :
    _save_transfer (db ++ [t]) t' = db ++ [{ t' with created_at := t.created_at }] := by
  induction db with
  | nil =>
    simp only [List.nil_append, _save_transfer]
    rw [if_pos (by simp [transferKeyMatch, hs, he])]
  | cons r rest ih =>
    obtain ⟨hm, hrest⟩ := transferKeyCount_cons_zero r rest _ _ h0
    have hm2 : transferKeyMatch r t' = false := by
      simp only [transferKeyMatch, hs, he]
      exact hm
    simp only [List.cons_append, _save_transfer, hm2, Bool.false_eq_true, if_false,
      List.cons.injEq, true_and]
    exact ih hrest

/-- Appending one matching row to a key-free store leaves exactly one row with
the key. -/
theorem transferKeyCount_single_match (db : List TransferRow) (x : TransferRow) (src eid : String)
    (h0 : transferKeyCount db src eid = 0)
    (hx : (x.source == src && x.external_id == eid) = true) :
    transferKeyCount (db ++ [x]) src eid = 1 := by
  simp only [transferKeyCount, List.filter_append] at *
  simp [List.filter_cons, hx, h0, List.length_eq_zero.mp h0]

/-- The single matching row appended to a key-free store is the one the keyed
lookup returns. -/
theorem findTransfer_append_of_count_zero (db : List TransferRow) (x : TransferRow)
    (src eid : String) (h0 : transferKeyCount db src eid = 0)
    (hx : (x.source == src && x.external_id == eid) = true) :
    findTransfer (db ++ [x]) src eid = some x := by
  induction db with
  | nil => simp [findTransfer, List.find?, hx]
  | cons r rest ih =>
    obtain ⟨hm, hrest⟩ := transferKeyCount_cons_zero r rest _ _ h0
    simp only [findTransfer, List.cons_append, List.find?_cons, hm]
    exact ih hrest

/-- Counting trade rows with a key distributes over list cons. -/
theorem tradeKeyCount_cons (r : TradeRow) (rest : List TradeRow) (src eid : String) :
    tradeKeyCount (r :: rest) src eid =
      (if r.source == src && r.external_id == eid then 1 else 0) +
        tradeKeyCount rest src eid := by
  simp only [tradeKeyCount, List.filter_cons]
  split <;> simp [Nat.add_comm]

/-- A key absent from a cons list of trades is absent from head and tail. -/
theorem tradeKeyCount_cons_zero (r : TradeRow) (rest : List TradeRow) (src eid : String)
    (h : tradeKeyCount (r :: rest) src eid = 0) :
    (r.source == src && r.external_id == eid) = false ∧
      tradeKeyCount rest src eid = 0 := by
  rw [tradeKeyCount_cons] at h
  have hm : (r.source == src && r.external_id == eid) = false := by
    by_contra hb
    simp only [Bool.not_eq_false] at hb
    rw [hb] at h
    simp at h
  rw [hm] at h
  simp only [Bool.false_eq_true, if_false] at h
  exact ⟨hm, by omega⟩

/-- Saving a trade whose key is absent appends it at the end. -/
theorem save_trade_append (db : List TradeRow) (t : TradeRow)
    (h0 : tradeKeyCount db t.source t.external_id = 0) :
    _save_trade db t = db ++ [t] := by
  induction db with
  | nil => rfl
  | cons r rest ih =>
    obtain ⟨hm, hrest⟩ := tradeKeyCount_cons_zero r rest _ _ h0
    simp only [_save_trade, tradeKeyMatch, hm, Bool.false_eq_true, if_false,
      List.cons_append, List.cons.injEq, true_and]
    exact ih hrest

/-- Saving a second trade with the same key overwrites the stored row in place,
every field taken from the incoming record except created_at. -/
theorem save_trade_update (db : List TradeRow) (t t' : TradeRow)
    (hs : t'.source = t.source) (he : t'.external_id = t.external_id)
    (h0 : tradeKeyCount db t.source t.external_id = 0) :
    _save_trade (db ++ [t]) t' = db ++ [{ t' with created_at := t.created_at }] := by
  induction db with
  | nil =>
    simp only [List.nil_append, _save_trade]
    rw [if_pos (by simp [tradeKeyMatch, hs, he])]
  | cons r rest ih =>
    obtain ⟨hm, hrest⟩ := tradeKeyCount_cons_zero r rest _ _ h0
    have hm2 : tradeKeyMatch r t' = false := by
      simp only [tradeKeyMatch, hs, he]
      exact hm
    simp only [List.cons_append, _save_trade, hm2, Bool.false_eq_true, if_false,
      List.cons.injEq, true_and]
    exact ih hrest

/-- Appending one matching trade row to a key-free store leaves exactly one row
with the key. -/
theorem tradeKeyCount_single_match (db : List TradeRow) (x : TradeRow) (src eid : String)
    (h0 : tradeKeyCount db src eid = 0)
    (hx : (x.source == src && x.external_id == eid) = true) :
    tradeKeyCount (db ++ [x]) src eid = 1 := by
  simp only [tradeKeyCount, List.filter_append] at *
  simp [List.filter_cons, hx, h0, List.length_eq_zero.mp h0]

/-- The single matching trade row appended to a key-free store is the one the
keyed lookup returns. -/
theorem findTrade_append_of_count_zero (db : List TradeRow) (x : TradeRow)
    (src eid : String) (h0 : tradeKeyCount db src eid = 0)
    (hx : (x.source == src && x.external_id == eid) = true) :
    findTrade (db ++ [x]) src eid = some x := by
  induction db with
  | nil => simp [findTrade, List.find?, hx]
  | cons r rest ih =>
    obtain ⟨hm, hrest⟩ := tradeKeyCount_cons_zero r rest _ _ h0
    simp only [findTrade, List.cons_append, List.find?_cons, hm]
    exact ih hrest

/-- C2: for every canonical record whose (source, external_id) key is new to
the store, saving it twice through a collector's keyed upsert leaves exactly
one stored row for that key, whose fields all come from the second save except
created_at, which keeps the value of the first insert; the store grows by
exactly one row, for both the transfer and the trade upserts. -/
theorem save_upsert_idempotent
    (dbT : List TransferRow) (t t' : TransferRow)
    (hs : t'.source = t.source) (he : t'.external_id = t.external_id)
    (h0 : transferKeyCount dbT t.source t.external_id = 0)
    (dbR : List TradeRow) (u u' : TradeRow)
    (hs2 : u'.source = u.source) (he2 : u'.external_id = u.external_id)
    (h02 : tradeKeyCount dbR u.source u.external_id = 0) :
    (transferKeyCount (_save_transfer (_save_transfer dbT t) t') t.source t.external_id = 1 ∧
     findTransfer (_save_transfer (_save_transfer dbT t) t') t.source t.external_id =
       some { t' with created_at := t.created_at } ∧
     (_save_transfer (_save_transfer dbT t) t').length = dbT.length + 1) ∧
    (tradeKeyCount (_save_trade (_save_trade dbR u) u') u.source u.external_id = 1 ∧
     findTrade (_save_trade (_save_trade dbR u) u') u.source u.external_id =
       some { u' with created_at := u.created_at } ∧
     (_save_trade (_save_trade dbR u) u').length = dbR.length + 1) := by
  have e1 : _save_transfer dbT t = dbT ++ [t] := save_transfer_append dbT t h0
  have e2 : _save_transfer (_save_transfer dbT t) t' =
      dbT ++ [{ t' with created_at := t.created_at }] := by
    rw [e1]
    exact save_transfer_update dbT t t' hs he h0
  have hx : (({ t' with created_at := t.created_at } : TransferRow).source == t.source &&
      ({ t' with created_at := t.created_at } : TransferRow).external_id == t.external_id) =
        true := by
    simp [hs, he]
  have e3 : _save_trade dbR u = dbR ++ [u] := save_trade_append dbR u h02
  have e4 : _save_trade (_save_trade dbR u) u' =
      dbR ++ [{ u' with created_at := u.created_at }] := by
    rw [e3]
    exact save_trade_update dbR u u' hs2 he2 h02
  have hx2 : (({ u' with created_at := u.created_at } : TradeRow).source == u.source &&
      ({ u' with created_at := u.created_at } : TradeRow).external_id == u.external_id) =
        true := by
    simp [hs2, he2]
  refine ⟨⟨?_, ?_, ?_⟩, ?_, ?_, ?_⟩
  · rw [e2]
    exact transferKeyCount_single_match dbT _ _ _ h0 hx
  · rw [e2]
    exact findTransfer_append_of_count_zero dbT _ _ _ h0 hx
  · rw [e2]
    simp
  · rw [e4]
    exact tradeKeyCount_single_match dbR _ _ _ h02 hx2
  · rw [e4]
    exact findTrade_append_of_count_zero dbR _ _ _ h02 hx2
  · rw [e4]
    simp

/-- Witness for C2: re-saving a concrete deposit record with updated fields
leaves a single stored row carrying the new amount but the original
created_at, and likewise for a concrete trade record. -/
theorem save_upsert_idempotent_witness :
    findTransfer (_save_transfer (_save_transfer []
        ⟨"binance_api", 1, "deposit_1", 0, "transfer_in", "deposit", "a", "SPOT",
          "BTC", 5, "x", "BTC", "h", none, false, 100, 100⟩)
        ⟨"binance_api", 1, "deposit_1", 0, "transfer_in", "deposit", "a", "SPOT",
          "BTC", 6, "x", "BTC", "h", none, false, 200, 200⟩)
      "binance_api" "deposit_1" =
      some ⟨"binance_api", 1, "deposit_1", 0, "transfer_in", "deposit", "a", "SPOT",
        "BTC", 6, "x", "BTC", "h", none, false, 100, 200⟩ ∧
    findTrade (_save_trade (_save_trade []
        ⟨"binance_api", 1, "trade_1", 0, "trade", "spot_buy", "a", "SPOT", "BTCUSDT",
          "BTC", 5, 7, "o", "1", none, false, 100, 100⟩)
        ⟨"binance_api", 1, "trade_1", 0, "trade", "spot_buy", "a", "SPOT", "BTCUSDT",
          "BTC", 6, 7, "o", "1", none, false, 200, 200⟩)
      "binance_api" "trade_1" =
      some ⟨"binance_api", 1, "trade_1", 0, "trade", "spot_buy", "a", "SPOT", "BTCUSDT",
        "BTC", 6, 7, "o", "1", none, false, 100, 200⟩ :=
  ⟨(save_upsert_idempotent []
      ⟨"binance_api", 1, "deposit_1", 0, "transfer_in", "deposit", "a", "SPOT",
        "BTC", 5, "x", "BTC", "h", none, false, 100, 100⟩
      ⟨"binance_api", 1, "deposit_1", 0, "transfer_in", "deposit", "a", "SPOT",
        "BTC", 6, "x", "BTC", "h", none, false, 200, 200⟩ rfl rfl rfl
      []
      ⟨"binance_api", 1, "trade_1", 0, "trade", "spot_buy", "a", "SPOT", "BTCUSDT",
        "BTC", 5, 7, "o", "1", none, false, 100, 100⟩
      ⟨"binance_api", 1, "trade_1", 0, "trade", "spot_buy", "a", "SPOT", "BTCUSDT",
        "BTC", 6, 7, "o", "1", none, false, 200, 200⟩ rfl rfl rfl).1.2.1,
   (save_upsert_idempotent []
      ⟨"binance_api", 1, "deposit_1", 0, "transfer_in", "deposit", "a", "SPOT",
        "BTC", 5, "x", "BTC", "h", none, false, 100, 100⟩
      ⟨"binance_api", 1, "deposit_1", 0, "transfer_in", "deposit", "a", "SPOT",
        "BTC", 6, "x", "BTC", "h", none, false, 200, 200⟩ rfl rfl rfl
      []
      ⟨"binance_api", 1, "trade_1", 0, "trade", "spot_buy", "a", "SPOT", "BTCUSDT",
        "BTC", 5, 7, "o", "1", none, false, 100, 100⟩
      ⟨"binance_api", 1, "trade_1", 0, "trade", "spot_buy", "a", "SPOT", "BTCUSDT",
        "BTC", 6, 7, "o", "1", none, false, 200, 200⟩ rfl rfl rfl).2.2.1⟩

/-! ## C4: trade decomposition -/

/-- Counterexample for C4: on the symbol ETHBTC, whose base asset is ETH and
whose quote asset is BTC, the principal record of a sell is booked in BUSD
rather than the quote asset BTC, and the principal record of a buy is booked in
the unchanged string ETHBTC rather than the base asset ETH, because the asset
derivation is a stablecoin string heuristic. -/
theorem process_trade_counterexample :
    "ETHBTC" = "ETH" ++ "BTC" ∧
    (_process_trade "u" 0 ⟨0, "1", "9", false, false, 1, 2, 5, 0, "BNB"⟩ "ETHBTC").map
      TradeRow.asset = ["BUSD"] ∧
    ("BUSD" : String) ≠ "BTC" ∧
    (_process_trade "u" 0 ⟨0, "1", "9", true, false, 1, 2, 5, 0, "BNB"⟩ "ETHBTC").map
      TradeRow.asset = ["ETHBTC"] ∧
    ("ETHBTC" : String) ≠ "ETH" := by
  refine ⟨by decide, by decide, by decide, by decide, by decide⟩

/-- C4 (amended): every raw spot trade yields exactly one principal record —
spot_buy when isBuyer with amount qty and asset the symbol string with the
USDT, USDC and BUSD substrings removed, spot_sell otherwise with amount
quoteQty and asset the stablecoin contained in the symbol with BUSD as the
fallback — plus, exactly when commission > 0, one fee record in the commission
asset tagged maker_fee when isMaker and taker_fee otherwise, under the distinct
deterministic external ids trade_id and trade_fee_id. -/
theorem process_trade_amended (email : String) (now : Nat) (t : RawTrade) (symbol : String) :
    ∃ principal : TradeRow,
      _process_trade email now t symbol =
        principal ::
          (if 0 < t.commission then
            [{ principal with
                external_id := "trade_fee_" ++ t.id,
                txn_type := "txn_fee",
                txn_subtype := if t.isMaker then "maker_fee" else "taker_fee",
                asset := t.commissionAsset,
                amount := t.commission }]
          else []) ∧
      principal.external_id = "trade_" ++ t.id ∧
      principal.txn_type = "trade" ∧
      principal.txn_subtype = (if t.isBuyer then "spot_buy" else "spot_sell") ∧
      principal.asset =
        (if t.isBuyer then pyRemove (pyRemove (pyRemove symbol "USDT") "USDC") "BUSD"
         else if pyContainsSub symbol "USDT" then "USDT"
         else if pyContainsSub symbol "USDC" then "USDC"
         else "BUSD") ∧
      principal.amount = (if t.isBuyer then t.qty else t.quoteQty) ∧
      principal.price = t.price ∧
      "trade_fee_" ++ t.id ≠ "trade_" ++ t.id := by
  refine ⟨{ source := "binance_api", fid := 1, external_id := "trade_" ++ t.id,
            datetime := t.time, txn_type := "trade",
            txn_subtype := if t.isBuyer then "spot_buy" else "spot_sell",
            email := email, wallet := "SPOT", symbol := symbol,
            asset := if t.isBuyer then
                pyRemove (pyRemove (pyRemove symbol "USDT") "USDC") "BUSD"
              else if pyContainsSub symbol "USDT" then "USDT"
              else if pyContainsSub symbol "USDC" then "USDC" else "BUSD",
            amount := if t.isBuyer then t.qty else t.quoteQty, price := t.price,
            order_id := t.orderId, trade_id := t.id, match_id := none, reconciled := false,
            created_at := now, updated_at := now }, ?_, rfl, rfl, rfl, rfl, rfl, rfl,
    append_ne_of_length_ne _ _ _ (by decide)⟩
  by_cases hc : 0 < t.commission <;> simp [_process_trade, hc]

/-! ## C1: reconciliation conservation -/

/-- Lookup after assignment: the assigned key reads the new value, every other
key is unchanged. -/
theorem dictGet_dictSet (d : PosDict) (k : String) (v : ℚ) (a : String) :
    dictGet (dictSet d k v) a = if a = k then some v else dictGet d a := by
  induction d with
  | nil =>
    by_cases hak : a = k
    · simp [dictSet, dictGet, hak]
    · have hka : (k == a) = false := by
        simp only [beq_eq_false_iff_ne, ne_eq]
        exact fun h => hak h.symm
      simp [dictSet, dictGet, hak, List.find?_cons, hka]
  | cons p rest ih =>
    by_cases hpk : p.1 = k
    · by_cases hak : a = k
      · simp [dictSet, dictGet, hpk, hak]
      · have hka : (k == a) = false := by
          simp only [beq_eq_false_iff_ne, ne_eq]
          exact fun h => hak h.symm
        have hpa : (p.1 == a) = false := by
          simp only [beq_eq_false_iff_ne, ne_eq, hpk]
          exact fun h => hak h.symm
        simp only [dictSet, if_pos hpk, dictGet, List.find?_cons, hka, hpa, if_neg hak]
    · by_cases hpa : p.1 = a
      · have hak : ¬ a = k := fun h => hpk (by rw [hpa, h])
        have hb : (p.1 == a) = true := by simp [hpa]
        simp only [dictSet, if_neg hpk, dictGet, List.find?_cons, hb, if_neg hak]
      · have hb : (p.1 == a) = false := by simp [hpa]
        simp only [dictSet, if_neg hpk, dictGet, List.find?_cons, hb] at ih ⊢
        exact ih

/-- Defaulted lookup after assignment. -/
theorem dictGetD_dictSet (d : PosDict) (k : String) (v : ℚ) (a : String) :
    dictGetD (dictSet d k v) a 0 = if a = k then v else dictGetD d a 0 := by
  simp only [dictGetD, dictGet_dictSet]
  split <;> rfl

/-- Keys after assignment are the old keys plus possibly the assigned key. -/
theorem mem_dictKeys_dictSet (d : PosDict) (k : String) (v : ℚ) (a : String) :
    a ∈ dictKeys (dictSet d k v) ↔ a ∈ dictKeys d ∨ a = k := by
  induction d with
  | nil => simp [dictSet, dictKeys]
  | cons p rest ih =>
    by_cases hpk : p.1 = k
    · simp only [dictSet]
      rw [if_pos hpk]
      simp only [dictKeys, List.map_cons, List.mem_cons, hpk]
      tauto
    · simp only [dictSet, if_neg hpk, dictKeys, List.map_cons, List.mem_cons]
      rw [show (dictSet rest k v).map Prod.fst = dictKeys (dictSet rest k v) from rfl,
        show rest.map Prod.fst = dictKeys rest from rfl] at *
      rw [ih]
      tauto

/-- Assignment preserves key uniqueness. -/
theorem dictKeys_nodup_dictSet (d : PosDict) (k : String) (v : ℚ)
    (h : (dictKeys d).Nodup) : (dictKeys (dictSet d k v)).Nodup := by
  induction d with
  | nil => simp [dictSet, dictKeys]
  | cons p rest ih =>
    simp only [dictKeys, List.map_cons, List.nodup_cons] at h
    obtain ⟨hp, hrest⟩ := h
    by_cases hpk : p.1 = k
    · simp only [dictSet, if_pos hpk, dictKeys, List.map_cons, List.nodup_cons]
      exact ⟨by rw [← hpk]; exact hp, hrest⟩
    · simp only [dictSet, if_neg hpk, dictKeys, List.map_cons, List.nodup_cons]
      refine ⟨?_, ih hrest⟩
      rw [show (dictSet rest k v).map Prod.fst = dictKeys (dictSet rest k v) from rfl]
      rw [mem_dictKeys_dictSet]
      rintro (hmem | heq)
      · exact hp hmem
      · exact hpk heq

/-- Key membership agrees with lookup success. -/
theorem mem_dictKeys_iff_isSome (d : PosDict) (a : String) :
    a ∈ dictKeys d ↔ (dictGet d a).isSome := by
  induction d with
  | nil => simp [dictKeys, dictGet]
  | cons p rest ih =>
    by_cases hpa : p.1 = a
    · have hb : (p.1 == a) = true := by simp [hpa]
      simp [dictKeys, dictGet, List.find?_cons, hb, hpa]
    · have hb : (p.1 == a) = false := by simp [hpa]
      simp only [dictKeys, List.map_cons, List.mem_cons, dictGet, List.find?_cons, hb] at ih ⊢
      rw [show rest.map Prod.fst = dictKeys rest from rfl]
      constructor
      · rintro (heq | hmem)
        · exact absurd heq.symm hpa
        · exact ih.mp hmem
      · intro hsome
        exact Or.inr (ih.mpr hsome)

/-- Applying one transaction changes the tracked asset by exactly its delta. -/
theorem dictGetD_applyTxn (pos : PosDict) (t : Txn) (a : String) :
    dictGetD (applyTxn pos t) a 0 = dictGetD pos a 0 + txnDelta t a := by
  by_cases hta : t.asset = a
  · subst hta
    unfold applyTxn txnDelta
    by_cases h1 : t.type = "deposit"
    · simp [h1, dictGetD_dictSet]
    · by_cases h2 : t.type = "withdrawal"
      · simp [h1, h2, dictGetD_dictSet]
        ring
      · by_cases h3 : t.type = "trade"
        · by_cases h4 : t.side = "buy"
          · simp [h1, h2, h3, h4, dictGetD_dictSet]
          · simp [h1, h2, h3, h4, dictGetD_dictSet]
            ring
        · simp [h1, h2, h3]
  · have hset : ∀ v : ℚ, dictGetD (dictSet pos t.asset v) a 0 = dictGetD pos a 0 := by
      intro v
      rw [dictGetD_dictSet]
      exact if_neg fun h => hta h.symm
    unfold applyTxn txnDelta
    by_cases h1 : t.type = "deposit"
    · simp [h1, hset, hta]
    · by_cases h2 : t.type = "withdrawal"
      · simp [h1, h2, hset, hta]
      · by_cases h3 : t.type = "trade"
        · by_cases h4 : t.side = "buy" <;> simp [h1, h2, h3, h4, hset, hta]
        · simp [h1, h2, h3, hta]

/-- Folding the transaction list sums the per-transaction deltas. -/
theorem dictGetD_foldl_applyTxn (txns : List Txn) :
    ∀ (pos : PosDict) (a : String),
      dictGetD (txns.foldl applyTxn pos) a 0 =
        dictGetD pos a 0 + (txns.map (fun t => txnDelta t a)).sum := by
  induction txns with
  | nil => simp
  | cons t ts ih =>
    intro pos a
    simp only [List.foldl_cons, List.map_cons, List.sum_cons]
    rw [ih, dictGetD_applyTxn]
    ring

/-- Applying one transaction preserves key uniqueness. -/
theorem dictKeys_nodup_applyTxn (pos : PosDict) (t : Txn)
    (h : (dictKeys pos).Nodup) : (dictKeys (applyTxn pos t)).Nodup := by
  unfold applyTxn
  by_cases h1 : t.type = "deposit"
  · simp only [h1, if_pos rfl]
    exact dictKeys_nodup_dictSet _ _ _ h
  · by_cases h2 : t.type = "withdrawal"
    · simp [h1, h2]
      exact dictKeys_nodup_dictSet _ _ _ h
    · by_cases h3 : t.type = "trade"
      · by_cases h4 : t.side = "buy" <;> simp [h1, h2, h3, h4] <;>
          exact dictKeys_nodup_dictSet _ _ _ h
      · simpa [h1, h2, h3] using h

/-- Folding the transaction list preserves key uniqueness. -/
theorem dictKeys_nodup_foldl (txns : List Txn) :
    ∀ pos : PosDict, (dictKeys pos).Nodup →
      (dictKeys (txns.foldl applyTxn pos)).Nodup := by
  induction txns with
  | nil => intro pos h; simpa using h
  | cons t ts ih =>
    intro pos h
    simp only [List.foldl_cons]
    exact ih _ (dictKeys_nodup_applyTxn pos t h)

/-- Defaulted lookup behavior on list cons. -/
theorem dictGet_cons (p : String × ℚ) (rest : PosDict) (a : String) :
    dictGet (p :: rest) a = if p.1 = a then some p.2 else dictGet rest a := by
  by_cases hpa : p.1 = a
  · have hb : (p.1 == a) = true := by simp [hpa]
    simp only [dictGet, List.find?_cons, hb, if_pos hpa]
    rfl
  · have hb : (p.1 == a) = false := by simp [hpa]
    simp only [dictGet, List.find?_cons, hb, if_neg hpa]

/-- A key absent before filtering is absent after filtering. -/
theorem dictGet_filter_none (d : PosDict) (pr : String × ℚ → Bool) (a : String)
    (h : dictGet d a = none) : dictGet (d.filter pr) a = none := by
  induction d with
  | nil => simp [dictGet]
  | cons p rest ih =>
    rw [dictGet_cons] at h
    by_cases hpa : p.1 = a
    · rw [if_pos hpa] at h
      exact absurd h (by simp)
    · rw [if_neg hpa] at h
      by_cases hf : pr p = true
      · rw [List.filter_cons_of_pos hf, dictGet_cons, if_neg hpa]
        exact ih h
      · rw [List.filter_cons_of_neg (by simpa using hf)]
        exact ih h

/-- On a dict with unique keys, dropping the non-positive entries turns each
lookup into the original value filtered by positivity. -/
theorem dictGet_filter_pos (d : PosDict) (h : (dictKeys d).Nodup) (a : String) :
    dictGet (d.filter fun p => 0 < p.2) a =
      match dictGet d a with
      | some v => if 0 < v then some v else none
      | none => none := by
  induction d with
  | nil => simp [dictGet]
  | cons p rest ih =>
    simp only [dictKeys, List.map_cons, List.nodup_cons] at h
    obtain ⟨hp, hrest⟩ := h
    rw [show rest.map Prod.fst = dictKeys rest from rfl] at hp
    by_cases hpa : p.1 = a
    · have hnone : dictGet rest a = none := by
        cases hg : dictGet rest a with
        | none => rfl
        | some v =>
          exact absurd (hpa ▸ (mem_dictKeys_iff_isSome rest a).mpr (by simp [hg])) hp
      by_cases hf : 0 < p.2
      · rw [List.filter_cons_of_pos (by simpa using hf), dictGet_cons, if_pos hpa,
          dictGet_cons, if_pos hpa]
        simp [hf]
      · rw [List.filter_cons_of_neg (by simpa using hf), dictGet_cons, if_pos hpa,
          dictGet_filter_none rest _ a hnone]
        simp [hf]
    · by_cases hf : 0 < p.2
      · rw [List.filter_cons_of_pos (by simpa using hf), dictGet_cons, if_neg hpa,
          dictGet_cons, if_neg hpa, ih hrest]
      · rw [List.filter_cons_of_neg (by simpa using hf), dictGet_cons, if_neg hpa,
          ih hrest]

/-- Membership in a fold of addKey accumulates membership. -/
theorem mem_foldl_addKey (l : List String) :
    ∀ (acc : List String) (k : String), k ∈ l.foldl addKey acc ↔ k ∈ acc ∨ k ∈ l := by
  induction l with
  | nil => simp
  | cons x xs ih =>
    intro acc k
    rw [List.foldl_cons, ih]
    unfold addKey
    by_cases hx : x ∈ acc
    · simp only [if_pos hx, List.mem_cons]
      constructor
      · tauto
      · rintro (h | h | h)
        · tauto
        · subst h; tauto
        · tauto
    · simp only [if_neg hx, List.mem_append, List.mem_singleton, List.mem_cons]
      tauto

/-- The determinized key union has exactly the members of the two inputs. -/
theorem mem_keyUnion (xs ys : List String) (k : String) :
    k ∈ keyUnion xs ys ↔ k ∈ xs ∨ k ∈ ys := by
  unfold keyUnion
  rw [mem_foldl_addKey]
  simp

/-- The clamped expected amount is positive exactly when the raw one is. -/
theorem amended_pos_iff (start : PosDict) (txns : List Txn) (a : String) :
    0 < amendedExpected start txns a ↔ 0 < rawExpected start txns a := by
  unfold amendedExpected
  by_cases h : 0 < rawExpected start txns a <;> simp [h]

/-- The expected position the code computes reads back, per asset, as the
starting amount plus the summed deltas, clamped at zero. -/
theorem calc_expected_getD (start : PosDict) (txns : List Txn) (a : String)
    (h : (dictKeys start).Nodup) :
    dictGetD (calculate_expected_position start txns) a 0 =
      amendedExpected start txns a := by
  have hnodup := dictKeys_nodup_foldl txns start h
  have hraw : rawExpected start txns a = dictGetD (txns.foldl applyTxn start) a 0 := by
    rw [rawExpected, dictGetD_foldl_applyTxn]
  unfold calculate_expected_position amendedExpected
  rw [dictGetD, dictGet_filter_pos _ hnodup a, hraw]
  cases hg : dictGet (txns.foldl applyTxn start) a with
  | none => simp [dictGetD, hg]
  | some v => by_cases hv : 0 < v <;> simp [dictGetD, hg, hv]

/-- An asset appears in the computed expected position exactly when its raw
expected amount is positive. -/
theorem mem_keys_calc_expected (start : PosDict) (txns : List Txn) (a : String)
    (h : (dictKeys start).Nodup) :
    a ∈ dictKeys (calculate_expected_position start txns) ↔
      0 < rawExpected start txns a := by
  have hnodup := dictKeys_nodup_foldl txns start h
  have hraw : rawExpected start txns a = dictGetD (txns.foldl applyTxn start) a 0 := by
    rw [rawExpected, dictGetD_foldl_applyTxn]
  unfold calculate_expected_position
  rw [mem_dictKeys_iff_isSome, dictGet_filter_pos _ hnodup a, hraw]
  cases hg : dictGet (txns.foldl applyTxn start) a with
  | none => simp [dictGetD, hg]
  | some v => by_cases hv : 0 < v <;> simp [dictGetD, hg, hv]

/-- The position dict of one account inherits unique keys from the store. -/
theorem acctGet_nodup (m : AcctPositions) (acct : String)
    (h : ∀ p ∈ m, (dictKeys p.2).Nodup) : (dictKeys (acctGet m acct)).Nodup := by
  unfold acctGet
  cases hfind : m.find? (fun p => p.1 == acct) with
  | none => simp [dictKeys]
  | some p => simpa using h p (List.mem_of_find?_eq_some hfind)

/-- Discrepancies the per-account loop emits, characterized by the clamped
expected formula, the actual snapshot and the tolerance. -/
theorem mem_reconcileAccount (t2 t1 : AcctPositions) (txns : List Txn) (acct : String)
    (h2 : (dictKeys (acctGet t2 acct)).Nodup) (d : Discrepancy) :
    d ∈ reconcileAccount t2 t1 txns acct ↔
      d.account = acct ∧
      d.expected = amendedExpected (acctGet t2 acct)
        (txns.filter (fun t => t.account_id == acct)) d.asset ∧
      d.actual = dictGetD (acctGet t1 acct) d.asset 0 ∧
      d.difference = d.actual - d.expected ∧
      tolerance < pyAbs (d.expected - d.actual) ∧
      (0 < d.expected ∨ d.asset ∈ dictKeys (acctGet t1 acct)) := by
  have hget : ∀ a, dictGetD (calculate_expected_position (acctGet t2 acct)
      (txns.filter (fun t => t.account_id == acct))) a 0 =
        amendedExpected (acctGet t2 acct) (txns.filter (fun t => t.account_id == acct)) a :=
    fun a => calc_expected_getD _ _ a h2
  simp only [reconcileAccount]
  rw [List.mem_filterMap]
  constructor
  · rintro ⟨a, ha, hfa⟩
    by_cases hc : tolerance < pyAbs
        (dictGetD (calculate_expected_position (acctGet t2 acct)
          (txns.filter (fun t => t.account_id == acct))) a 0 -
         dictGetD (acctGet t1 acct) a 0)
    · rw [if_pos hc] at hfa
      have hd := Option.some.inj hfa
      subst hd
      rw [mem_keyUnion] at ha
      refine ⟨rfl, hget a, rfl, rfl, hc, ?_⟩
      rcases ha with ha | ha
      · left
        have hpos := (amended_pos_iff _ _ _).mpr ((mem_keys_calc_expected _ _ _ h2).mp ha)
        rw [← hget a] at hpos
        exact hpos
      · right
        exact ha
    · rw [if_neg hc] at hfa
      exact absurd hfa (by simp)
  · rintro ⟨hacct, hexp, hact, hdiff, htol, hmem⟩
    refine ⟨d.asset, ?_, ?_⟩
    · rw [mem_keyUnion]
      rcases hmem with hpos | hmem
      · left
        rw [mem_keys_calc_expected _ _ _ h2, ← amended_pos_iff, ← hexp]
        exact hpos
      · right
        exact hmem
    · rw [if_pos (by rw [hget, ← hexp, ← hact]; exact htol)]
      rcases d with ⟨dacct, dasset, dexp, dact, ddiff⟩
      simp only at hacct hexp hact hdiff
      subst hacct
      simp only [Option.some.injEq, Discrepancy.mk.injEq, true_and]
      refine ⟨?_, ?_, ?_⟩
      · rw [hget, hexp]
      · rw [hact]
      · rw [hdiff, hexp, hact, hget]

/-- C1 (amended): on position snapshots whose per-account asset dicts have
unique keys, the engine emits the discrepancy d exactly when its account is in
the union of the two snapshots, its expected value equals position(T-2) plus
deposits and trade buys minus withdrawals and trade sells of that account and
asset — transactions of every other type, including transfer-ins,
transfer-outs and standalone fees, contribute nothing — clamped to 0 when not
positive, its actual value is the T-1 snapshot amount, its difference is
actual minus expected, that difference exceeds the absolute tolerance 1e-8 in
magnitude, and the asset shows up on at least one side of the comparison. -/
theorem reconcile_daily_amended (t2 t1 : AcctPositions) (txns : List Txn) (d : Discrepancy)
    (h2 : ∀ p ∈ t2, (dictKeys p.2).Nodup) :
    d ∈ reconcile_daily t2 t1 txns ↔
      d.account ∈ keyUnion (acctKeys t2) (acctKeys t1) ∧
      d.expected = amendedExpected (acctGet t2 d.account)
        (txns.filter (fun t => t.account_id == d.account)) d.asset ∧
      d.actual = dictGetD (acctGet t1 d.account) d.asset 0 ∧
      d.difference = d.actual - d.expected ∧
      tolerance < pyAbs (d.expected - d.actual) ∧
      (0 < d.expected ∨ d.asset ∈ dictKeys (acctGet t1 d.account)) := by
  unfold reconcile_daily
  rw [List.mem_flatMap]
  constructor
  · rintro ⟨acct, hacct, hd⟩
    rw [mem_reconcileAccount _ _ _ _ (acctGet_nodup t2 acct h2) d] at hd
    obtain ⟨heq, rest⟩ := hd
    subst heq
    exact ⟨hacct, rest⟩
  · rintro ⟨hmem, rest⟩
    exact ⟨d.account, hmem,
      (mem_reconcileAccount _ _ _ _ (acctGet_nodup t2 d.account h2) d).mpr ⟨rfl, rest⟩⟩

/-- Counterexample for C1: a transfer-in of 5 BTC that fully explains the
balance change from 10 to 15 — the claimed formula gives expected 15, equal to
the actual — is ignored by the engine, which computes expected 10 and emits a
discrepancy of +5. -/
theorem reconcile_counterexample :
    specExpectedFormula [("BTC", 10)] [⟨"transfer_in", "BTC", 5, "", "acct1"⟩] "BTC" = 15 ∧
    dictGetD [("BTC", (15 : ℚ))] "BTC" 0 = 15 ∧
    reconcile_daily [("acct1", [("BTC", 10)])] [("acct1", [("BTC", 15)])]
        [⟨"transfer_in", "BTC", 5, "", "acct1"⟩] =
      [⟨"acct1", "BTC", 10, 15, 5⟩] := by
  refine ⟨by norm_num [specExpectedFormula, dictGetD, dictGet,
    show ("transfer_in" : String) ≠ "withdrawal" from by decide,
    show ("transfer_in" : String) ≠ "transfer_out" from by decide,
    show ("transfer_in" : String) ≠ "trade" from by decide,
    show ("transfer_in" : String) ≠ "txn_fee" from by decide,
    show ("transfer_in" : String) ≠ "deposit" from by decide], rfl, ?_⟩
  have hcalc : calculate_expected_position [("BTC", (10 : ℚ))]
      [⟨"transfer_in", "BTC", 5, "", "acct1"⟩] = [("BTC", 10)] := rfl
  have hra : reconcileAccount [("acct1", [("BTC", 10)])] [("acct1", [("BTC", 15)])]
      [⟨"transfer_in", "BTC", 5, "", "acct1"⟩] "acct1" = [⟨"acct1", "BTC", 10, 15, 5⟩] := by
    simp only [reconcileAccount,
      show acctGet [("acct1", [("BTC", (10 : ℚ))])] "acct1" = [("BTC", 10)] from rfl,
      show acctGet [("acct1", [("BTC", (15 : ℚ))])] "acct1" = [("BTC", 15)] from rfl,
      show List.filter (fun t => t.account_id == "acct1")
        [(⟨"transfer_in", "BTC", 5, "", "acct1"⟩ : Txn)] =
        [⟨"transfer_in", "BTC", 5, "", "acct1"⟩] from rfl,
      hcalc,
      show keyUnion (dictKeys [("BTC", (10 : ℚ))]) (dictKeys [("BTC", (15 : ℚ))]) =
        ["BTC"] from rfl,
      show dictGetD [("BTC", (10 : ℚ))] "BTC" 0 = 10 from rfl,
      show dictGetD [("BTC", (15 : ℚ))] "BTC" 0 = 15 from rfl]
    norm_num [tolerance, pyAbs, dictGetD, dictGet, List.filterMap_cons]
  show (keyUnion (acctKeys [("acct1", [("BTC", (10 : ℚ))])])
      (acctKeys [("acct1", [("BTC", (15 : ℚ))])])).flatMap
      (reconcileAccount [("acct1", [("BTC", 10)])] [("acct1", [("BTC", 15)])]
        [⟨"transfer_in", "BTC", 5, "", "acct1"⟩]) = _
  rw [show keyUnion (acctKeys [("acct1", [("BTC", (10 : ℚ))])])
      (acctKeys [("acct1", [("BTC", (15 : ℚ))])]) = ["acct1"] from rfl]
  simp only [List.flatMap_cons, List.flatMap_nil, List.append_nil, hra]

/-- Witness for C1 (amended): the specification example — position 10, a
deposit of 5 and a trade sell of 3 give expected 12, and an actual of 12.5
yields the discrepancy +0.5 — evaluated through the amended theorem. -/
theorem reconcile_daily_amended_witness :
    (⟨"acct", "BTC", 12, 25 / 2, 1 / 2⟩ : Discrepancy) ∈
      reconcile_daily [("acct", [("BTC", 10)])] [("acct", [("BTC", 25 / 2)])]
        [⟨"deposit", "BTC", 5, "", "acct"⟩, ⟨"trade", "BTC", 3, "sell", "acct"⟩] := by
  refine (reconcile_daily_amended _ _ _ _ (by decide)).mpr ⟨by decide, ?_, rfl, ?_, ?_, ?_⟩
  · show (12 : ℚ) = amendedExpected [("BTC", 10)]
      (List.filter (fun t => t.account_id == "acct")
        [⟨"deposit", "BTC", 5, "", "acct"⟩, ⟨"trade", "BTC", 3, "sell", "acct"⟩]) "BTC"
    norm_num [amendedExpected, rawExpected, txnDelta, dictGetD, dictGet,
      show ("trade" : String) ≠ "deposit" from by decide,
      show ("trade" : String) ≠ "withdrawal" from by decide,
      show ("sell" : String) ≠ "buy" from by decide,
      show ("deposit" : String) ≠ "withdrawal" from by decide]
  · norm_num
  · norm_num [tolerance, pyAbs]
  · norm_num
